import Mathlib

/-!
Verification of the GroupDivision assignment-and-optimization engine
(`GroupDivision.py`): greedy assignment of individuals to groups, post-hoc
size balancing, outcome evaluation, and the multi-restart search driver.

The Python code is shallowly embedded: dictionaries become association
lists (iteration in insertion order), the partition `groups` becomes a
list of member lists indexed by group number (the dict keys
`Group1..GroupN` are created in that fixed order and never change), and
Python's `random.shuffle` is made explicit as an index permutation
supplied by the caller.  Python integers are modelled as `Int`/`Nat` and
the floating-point success percentage as `ℚ` (all percentages produced by
the program are exact small rationals).  Exceptions a run can raise are
modelled with `Except`.
-/

namespace GroupDivision

/-- An individual is an opaque name, as in the source (student names). -/
abbrev Individual := String

/-- The `student_to_friends` mapping: a Python dict mapped to an association list kept
in insertion order. -/
abbrev Prefs := List (Individual × List Individual)

/-- Lookup `student_to_friends.get(student, [])`: first matching key, `[]` when
absent. -/
def prefsGet (prefs : Prefs) (s : Individual) : List Individual :=
  match prefs with
  | [] => []
  | (k, fs) :: rest => if k = s then fs else prefsGet rest s

/-- The `random.shuffle` outcome made explicit: the permutation `perm` lists the
positions of the input that the shuffled list reads, in order.  A genuine
shuffle corresponds to `perm` being a permutation of `List.range l.length`. -/
def applyPerm (perm : List Nat) (l : List α) : List α :=
  perm.filterMap (fun i => l[i]?)

/-! ## Greedy Assigner (`assign_students_to_groups`, lines 42–75) -/

/-- The score `friend_score * 10 - size_penalty` for one candidate group
(lines 56–63): ten points per preferred co-member already in the group,
minus the group's current size. -/
def groupScore (friends members : List Individual) : Int :=
  10 * (friends.countP (fun f => decide (f ∈ members)) : Int) - members.length

/-- The inner `for group, members in groups.items()` loop (lines 50–69):
running over the groups in order, keep the first group attaining the
strictly greatest score (`if score > best_score`). -/
def pickBest (friends : List Individual) :
    List (List Individual) → Nat → Option (Nat × Int) → Option (Nat × Int)
  | [], _, best => best
  | g :: gs, i, best =>
      let s := groupScore friends g
      match best with
      | none => pickBest friends gs (i + 1) (some (i, s))
      | some bs =>
          pickBest friends gs (i + 1) (if bs.2 < s then some (i, s) else some bs)

/-- Index of the group the student is assigned to; `none` exactly when there
are no groups (`best_group is None`). -/
def pickBestGroup (friends : List Individual) (groups : List (List Individual)) :
    Option Nat :=
  (pickBest friends groups 0 none).map Prod.fst

/-- Mutable state of the assignment loop: the `groups` dict (member lists in
group order) and the key set of the `student_to_group` dict. -/
structure AssignState where
  groups : List (List Individual)
  assigned : List Individual
deriving DecidableEq, Repr

/-- One iteration of `for student in students` (lines 48–73): a student
already in `student_to_group` is skipped (every group is `continue`d, so
`best_group` stays `None`); otherwise the best-scoring group receives the
student at the end of its member list. -/
def assignOne (prefs : Prefs) (st : AssignState) (student : Individual) :
    AssignState :=
  if student ∈ st.assigned then st
  else
    match pickBestGroup (prefsGet prefs student) st.groups with
    | none => st
    | some i =>
        ⟨st.groups.set i ((st.groups.getD i []) ++ [student]),
         st.assigned ++ [student]⟩

/-- The assignment loop run over an already-ordered student list, starting
from `num_groups` empty groups. -/
def assignCore (students : List Individual) (prefs : Prefs) (numGroups : Nat) :
    AssignState :=
  students.foldl (assignOne prefs) ⟨List.replicate numGroups [], []⟩

/-- Model of `assign_students_to_groups(students, student_to_friends, num_groups)`:
the function first calls `shuffle(students)` — an in-place permutation of
the caller's list — and then runs the greedy loop.  The result is the
`groups` dict together with the caller's list as it is left after the
call. -/
def assign_students_to_groups (perm : List Nat) (students : List Individual)
    (prefs : Prefs) (numGroups : Nat) :
    List (List Individual) × List Individual :=
  let shuffled := applyPerm perm students
  ((assignCore shuffled prefs numGroups).groups, shuffled)

/-! ## Balancer (`balance_groups`, lines 78–97) -/

/-- Absolute deviation of one group size from the target. -/
def devN (n : Nat) (target : Int) : Nat := ((n : Int) - target).natAbs

/-- Total absolute deviation of the partition from the target size — the
measure the specification names for termination. -/
def totalDev (groups : List (List Individual)) (target : Int) : Nat :=
  (groups.map (fun g => devN g.length target)).sum

/-- The list `[g for g in group_list if len(groups[g]) > target_size + 1]`. -/
def overfilled (groups : List (List Individual)) (target : Int) : List Nat :=
  (List.range groups.length).filter
    (fun i => decide (target + 1 < ((groups.getD i []).length : Int)))

/-- The list `[g for g in group_list if len(groups[g]) < target_size]`. -/
def underfilled (groups : List (List Individual)) (target : Int) : List Nat :=
  (List.range groups.length).filter
    (fun i => decide (((groups.getD i []).length : Int) < target))

/-- One iteration of the `while True` loop: `none` when the loop breaks
(one of the two lists is empty), otherwise `groups[donor].pop()` removes
the donor's last member and appends it to the receiver.  The inner `none`
branch (empty donor, where Python's `pop` would raise `IndexError`) is
unreachable: a nonempty `underfilled` forces `target ≥ 1`, so an
overfilled group has more than `target + 1 ≥ 2` members. -/
def balanceStep (groups : List (List Individual)) (target : Int) :
    Option (List (List Individual)) :=
  match overfilled groups target, underfilled groups target with
  | d :: _, r :: _ =>
      let donor := groups.getD d []
      match donor.getLast? with
      | some x =>
          let g1 := groups.set d donor.dropLast
          some (g1.set r ((g1.getD r []) ++ [x]))
      | none => none
  | _, _ => none

/-- The balancing loop with explicit fuel; `balanceGroupsDone` below proves
that `totalDev` steps of fuel always reach the loop's exit condition, so
the fuelled loop computes exactly what the unbounded `while True` loop
computes. -/
def balanceFuel : Nat → List (List Individual) → Int → List (List Individual)
  | 0, groups, _ => groups
  | fuel + 1, groups, target =>
      match balanceStep groups target with
      | some g2 => balanceFuel fuel g2 target
      | none => groups

/-- Model of `balance_groups(groups, target_size)`. -/
def balance_groups (groups : List (List Individual)) (target : Int) :
    List (List Individual) :=
  balanceFuel (totalDev groups target) groups target

/-! ## Evaluator (`evaluate_friend_success`, lines 100–126) -/

/-- The `student_to_group` dict comprehension (lines 102–106): iterating
groups in order and members in order, a later occurrence of a student
overwrites an earlier one, so the lookup yields the last group containing
the student. -/
def s2gAux (x : Individual) :
    List (List Individual) → Nat → Option Nat → Option Nat
  | [], _, acc => acc
  | g :: gs, i, acc => s2gAux x gs (i + 1) (if x ∈ g then some i else acc)

/-- Group of a student in the partition (`student_to_group[student]`),
`none` when the student appears in no group. -/
def student_to_group (groups : List (List Individual)) (x : Individual) :
    Option Nat :=
  s2gAux x groups 0 none

/-- The `for student, friends in student_to_friends.items()` loop
(lines 111–121), accumulating `(success, total)`: a student absent from
the partition is skipped; a present student counts toward `total` and
toward `success` when at least one declared friend is in the same
group. -/
def evalFold (groups : List (List Individual)) :
    Prefs → Nat × Nat → Nat × Nat
  | [], st => st
  | (s, fs) :: rest, st =>
      match student_to_group groups s with
      | none => evalFold groups rest st
      | some g =>
          evalFold groups rest
            (if fs.any (fun f => student_to_group groups f = some g) then
               st.1 + 1
             else st.1,
             st.2 + 1)

/-- Model of `evaluate_friend_success(groups, student_to_friends)`: returns
`(percent, success, total)` with `percent = (success / total) * 100` when
`total > 0` and `0` otherwise. -/
def evaluate_friend_success (groups : List (List Individual)) (prefs : Prefs) :
    ℚ × Nat × Nat :=
  let st := evalFold groups prefs (0, 0)
  (if 0 < st.2 then ((st.1 : ℚ) / (st.2 : ℚ)) * 100 else 0, st.1, st.2)

/-! ## Pipeline (`run_smart_assignment`, lines 189–201, and `run_n_times`,
lines 216–238) -/

/-- Unhandled Python exceptions the pipeline can raise. -/
inductive PyError where
  /-- `total_students // num_groups` with `num_groups = 0`. -/
  | zeroDivision : PyError
  /-- `export_assignments_to_excel(None, ...)` calling `None.items()`. -/
  | attributeNone : PyError
deriving DecidableEq, Repr

/-- Value of one trial: `(percent, groups, success, total)` as produced by
`run_smart_assignment` (the returned `student_to_friends` is the unchanged
input and is omitted). -/
structure TrialOutcome where
  percent : ℚ
  groups : List (List Individual)
  success : Nat
  total : Nat
deriving DecidableEq, Repr

/-- Model of `run_smart_assignment(filename, num_groups)` with the file loading
(an out-of-scope collaborator) replaced by the loaded population and
preference list, and the two `shuffle` calls (one in
`run_smart_assignment`, one inside `assign_students_to_groups`) made
explicit as `perm1` and `perm2`.  `num_groups` is a Python int; with
`num_groups = 0` the target-size floor division raises
`ZeroDivisionError`. -/
def run_smart_assignment (perm1 perm2 : List Nat)
    (students : List Individual) (prefs : Prefs) (numGroups : Int) :
    Except PyError TrialOutcome :=
  let students1 := applyPerm perm1 students
  let ag := assign_students_to_groups perm2 students1 prefs numGroups.toNat
  if numGroups = 0 then .error .zeroDivision
  else
    let target := Int.fdiv (ag.2.length : Int) numGroups
    let groups2 := balance_groups ag.1 target
    let ev := evaluate_friend_success groups2 prefs
    .ok ⟨ev.1, groups2, ev.2.1, ev.2.2⟩

/-- The `max_values_dict` record of `run_n_times`: metrics plus the best partition,
`none` standing for the initial Python `None`. -/
structure BestRecord where
  total : Nat
  success : Nat
  percent : ℚ
  groups : Option (List (List Individual))
deriving DecidableEq, Repr

/-- The record both dicts start from: `{"total": 0, "success": 0,
"percent": 0, "groups": None, ...}`. -/
def initRecord : BestRecord := ⟨0, 0, 0, none⟩

/-- Best-so-far update (lines 227–232): the record is replaced — all
fields at once — exactly when the current trial's percentage strictly
exceeds the stored one. -/
def bestStep (best : BestRecord) (curr : TrialOutcome) : BestRecord :=
  if best.percent < curr.percent then
    ⟨curr.total, curr.success, curr.percent, some curr.groups⟩
  else best

/-- The `for i in range(n)` loop of `run_n_times` over the outcomes of the
individual trials. -/
def run_n_times_best (trials : List TrialOutcome) : BestRecord :=
  trials.foldl bestStep initRecord

/-- Model of `run_n_times(num_groups, n)`: one `(perm1, perm2)` pair of shuffle
outcomes per trial; after the loop the best partition is handed to
`export_assignments_to_excel`, which raises `AttributeError` when the
record still holds `None`. -/
def run_n_times (perms : List (List Nat × List Nat))
    (students : List Individual) (prefs : Prefs) (numGroups : Int) :
    Except PyError BestRecord :=
  match perms.mapM
      (fun p => run_smart_assignment p.1 p.2 students prefs numGroups) with
  | .error e => .error e
  | .ok outcomes =>
      match (run_n_times_best outcomes).groups with
      | none => .error .attributeNone
      | some _ => .ok (run_n_times_best outcomes)

/-- Preference lists with every reference outside `pop` removed — used to
state that dangling references never influence assignment or
evaluation. -/
def restrictPrefs (prefs : Prefs) (pop : List Individual) : Prefs :=
  prefs.map (fun p => (p.1, p.2.filter (fun f => decide (f ∈ pop))))

/-- The record `run_n_times` adopts from a trial when the trial wins. -/
def trialRecord (tr : TrialOutcome) : BestRecord :=
  ⟨tr.total, tr.success, tr.percent, some tr.groups⟩

/-- A preference entry whose owner appears in the partition — the entries
the Evaluator counts in the denominator. -/
def evalPresent (groups : List (List Individual))
    (p : Individual × List Individual) : Bool :=
  (student_to_group groups p.1).isSome

/-- A preference entry whose owner appears in the partition together with
at least one declared friend — the entries the Evaluator counts in the
numerator. -/
def evalSuccess (groups : List (List Individual))
    (p : Individual × List Individual) : Bool :=
  match student_to_group groups p.1 with
  | none => false
  | some g => p.2.any (fun f => student_to_group groups f = some g)

/-! # Generic list lemmas -/

/-- Replacing the `i`-th entry changes a mapped sum by the difference of the
two images, stated additively. -/
theorem sum_map_set {α : Type} (f : α → Nat) :
    ∀ (l : List α) (i : Nat) (a d : α), i < l.length →
      ((l.set i a).map f).sum + f (l.getD i d) = (l.map f).sum + f a := by
  intro l
  induction l with
  | nil => intro i a d h; simp at h
  | cons x xs ih =>
      intro i a d h
      cases i with
      | zero => simp; omega
      | succ n =>
          simp only [List.set_cons_succ, List.map_cons, List.sum_cons,
            List.getD_cons_succ]
          have := ih n a d (by simpa using Nat.lt_of_succ_lt_succ h)
          omega

/-- Setting one index leaves `getD` at a different index unchanged. -/
theorem getD_set_ne {α : Type} (l : List α) {i j : Nat} (h : i ≠ j)
    (a d : α) : (l.set i a).getD j d = l.getD j d := by
  simp [List.getD_eq_getElem?_getD, List.getElem?_set_ne h]

/-! # Balancer lemmas -/

theorem mem_overfilled {groups : List (List Individual)} {t : Int} {i : Nat} :
    i ∈ overfilled groups t ↔
      i < groups.length ∧ t + 1 < ((groups.getD i []).length : Int) := by
  simp [overfilled, List.mem_filter, List.mem_range]

theorem mem_underfilled {groups : List (List Individual)} {t : Int} {i : Nat} :
    i ∈ underfilled groups t ↔
      i < groups.length ∧ ((groups.getD i []).length : Int) < t := by
  simp [underfilled, List.mem_filter, List.mem_range]

/-- Shape of a successful balance step: a donor from the head of
`overfilled`, a receiver from the head of `underfilled`, and the donor's
last member moved. -/
theorem balanceStep_eq_some {gs : List (List Individual)} {t : Int}
    {g2 : List (List Individual)} (h : balanceStep gs t = some g2) :
    ∃ d r x, d ∈ overfilled gs t ∧ r ∈ underfilled gs t ∧
      (gs.getD d []).getLast? = some x ∧ d ≠ r ∧
      g2 = (gs.set d (gs.getD d []).dropLast).set r
             (((gs.set d (gs.getD d []).dropLast).getD r []) ++ [x]) := by
  unfold balanceStep at h
  rcases hov : overfilled gs t with _ | ⟨d, rest1⟩ <;> rw [hov] at h
  · simp at h
  rcases hun : underfilled gs t with _ | ⟨r, rest2⟩ <;> rw [hun] at h
  · simp at h
  dsimp only at h
  rcases hlast : (gs.getD d []).getLast? with _ | x <;> rw [hlast] at h
  · simp at h
  simp only [Option.some.injEq] at h
  have hd := mem_overfilled.1 (hov ▸ List.mem_cons_self d rest1)
  have hr := mem_underfilled.1 (hun ▸ List.mem_cons_self r rest2)
  have hdr : d ≠ r := by
    intro he
    rw [he] at hd
    omega
  exact ⟨d, r, x, hov ▸ List.mem_cons_self d rest1,
    hun ▸ List.mem_cons_self r rest2, hlast, hdr, h.symm⟩

/-- Each balance step decreases the total absolute deviation by exactly 2:
the donor was above `target + 1` and loses one member, the receiver was
below `target` and gains one. -/
theorem balanceStep_totalDev {gs : List (List Individual)} {t : Int}
    {g2 : List (List Individual)} (h : balanceStep gs t = some g2) :
    totalDev g2 t + 2 = totalDev gs t := by
  obtain ⟨d, r, x, hdo, hru, hlast, hdr, rfl⟩ := balanceStep_eq_some h
  obtain ⟨hdlen, hdov⟩ := mem_overfilled.1 hdo
  obtain ⟨hrlen, hrun⟩ := mem_underfilled.1 hru
  have hne : gs.getD d [] ≠ [] := by
    intro hnil
    rw [hnil] at hlast
    simp at hlast
  have hL : 1 ≤ (gs.getD d []).length := List.length_pos.2 hne
  have h1 := sum_map_set (fun g => devN g.length t) gs d
    ((gs.getD d []).dropLast) [] hdlen
  have hlen1 : (gs.set d (gs.getD d []).dropLast).length = gs.length :=
    List.length_set ..
  have h2 := sum_map_set (fun g => devN g.length t)
    (gs.set d (gs.getD d []).dropLast) r
    (((gs.set d (gs.getD d []).dropLast).getD r []) ++ [x]) []
    (by rw [hlen1]; exact hrlen)
  have hgetr : (gs.set d (gs.getD d []).dropLast).getD r [] = gs.getD r [] :=
    getD_set_ne _ hdr _ _
  simp only [totalDev] at h1 h2 ⊢
  rw [hgetr] at h2 ⊢
  simp only [List.length_append, List.length_dropLast, List.length_cons,
    List.length_nil] at h1 h2
  simp only [devN] at h1 h2 ⊢
  omega

/-- Each balance step preserves the multiset of assigned individuals: the
flattened partition keeps every multiplicity. -/
theorem balanceStep_count {gs : List (List Individual)} {t : Int}
    {g2 : List (List Individual)} (h : balanceStep gs t = some g2)
    (y : Individual) : g2.flatten.count y = gs.flatten.count y := by
  obtain ⟨d, r, x, hdo, hru, hlast, hdr, rfl⟩ := balanceStep_eq_some h
  obtain ⟨hdlen, _⟩ := mem_overfilled.1 hdo
  obtain ⟨hrlen, _⟩ := mem_underfilled.1 hru
  have hne : gs.getD d [] ≠ [] := by
    intro hnil
    rw [hnil] at hlast
    simp at hlast
  have hxlast : (gs.getD d []).getLast hne = x := by
    have := List.getLast?_eq_getLast (gs.getD d []) hne
    rw [this] at hlast
    exact (Option.some.injEq _ _ ▸ hlast)
  have hsplit : (gs.getD d []).dropLast ++ [x] = gs.getD d [] := by
    rw [← hxlast]
    exact List.dropLast_append_getLast hne
  have h1 := sum_map_set (List.count y) gs d
    ((gs.getD d []).dropLast) [] hdlen
  have hlen1 : (gs.set d (gs.getD d []).dropLast).length = gs.length :=
    List.length_set ..
  have h2 := sum_map_set (List.count y)
    (gs.set d (gs.getD d []).dropLast) r
    (((gs.set d (gs.getD d []).dropLast).getD r []) ++ [x]) []
    (by rw [hlen1]; exact hrlen)
  have hgetr : (gs.set d (gs.getD d []).dropLast).getD r [] = gs.getD r [] :=
    getD_set_ne _ hdr _ _
  have hcnt : List.count y (gs.getD d [])
      = List.count y ((gs.getD d []).dropLast) + List.count y [x] := by
    conv_lhs => rw [← hsplit]
    rw [List.count_append]
  rw [List.count_flatten, List.count_flatten]
  rw [hgetr] at h2 ⊢
  rw [List.count_append] at h2
  omega

/-- When the step returns `none` the loop's exit condition holds: one of
the two violator lists is empty.  (The third `none` branch of
`balanceStep` — an empty donor — cannot occur: a nonempty `underfilled`
forces a positive target, so an overfilled group is nonempty.) -/
theorem balanceStep_none_cases {gs : List (List Individual)} {t : Int}
    (h : balanceStep gs t = none) :
    overfilled gs t = [] ∨ underfilled gs t = [] := by
  rcases hov : overfilled gs t with _ | ⟨d, rest1⟩
  · exact Or.inl rfl
  rcases hun : underfilled gs t with _ | ⟨r, rest2⟩
  · exact Or.inr rfl
  exfalso
  unfold balanceStep at h
  rw [hov, hun] at h
  dsimp only at h
  rcases hlast : (gs.getD d []).getLast? with _ | x <;> rw [hlast] at h
  · have hd := mem_overfilled.1 (hov ▸ List.mem_cons_self d rest1)
    have hr := mem_underfilled.1 (hun ▸ List.mem_cons_self r rest2)
    have hnil : gs.getD d [] = [] := by
      rcases hgl : gs.getD d [] with _ | ⟨a, l⟩
      · rfl
      · rw [hgl] at hlast
        simp [List.getLast?_eq_getLast (a :: l) (by simp)] at hlast
    rw [hnil] at hd
    simp at hd
    omega
  · simp at h

theorem balanceStep_none_of_under {gs : List (List Individual)} {t : Int}
    (h : underfilled gs t = []) : balanceStep gs t = none := by
  unfold balanceStep
  rw [h]
  rcases overfilled gs t with _ | _ <;> rfl

/-- Fuel of `totalDev` always reaches the loop exit. -/
theorem balanceFuel_done :
    ∀ (fuel : Nat) (gs : List (List Individual)) (t : Int),
      totalDev gs t ≤ fuel → balanceStep (balanceFuel fuel gs t) t = none := by
  intro fuel
  induction fuel with
  | zero =>
      intro gs t h
      have h0 : totalDev gs t = 0 := Nat.le_zero.1 h
      have hun : underfilled gs t = [] := by
        rw [underfilled, List.filter_eq_nil_iff]
        intro i hi
        simp only [List.mem_range] at hi
        have hgm : gs.getD i [] ∈ gs := by
          rw [List.getD_eq_getElem _ _ hi]
          exact List.getElem_mem hi
        have hz : devN (gs.getD i []).length t = 0 := by
          have := List.sum_eq_zero_iff.1 h0
          exact this _ (List.mem_map_of_mem _ hgm)
        simp only [devN] at hz
        simp only [decide_eq_true_eq]
        omega
      simpa [balanceFuel] using balanceStep_none_of_under hun
  | succ n ih =>
      intro gs t h
      rcases hs : balanceStep gs t with _ | g2
      · simp only [balanceFuel, hs]
      · have hdev := balanceStep_totalDev hs
        simp only [balanceFuel, hs]
        exact ih g2 t (by omega)

/-- The fuelled loop of `balance_groups` always runs to the real exit
condition of the `while True` loop. -/
theorem balance_done (gs : List (List Individual)) (t : Int) :
    balanceStep (balance_groups gs t) t = none :=
  balanceFuel_done _ gs t le_rfl

theorem balanceFuel_count (y : Individual) :
    ∀ (fuel : Nat) (gs : List (List Individual)) (t : Int),
      (balanceFuel fuel gs t).flatten.count y = gs.flatten.count y := by
  intro fuel
  induction fuel with
  | zero => intro gs t; rfl
  | succ n ih =>
      intro gs t
      rcases hs : balanceStep gs t with _ | g2
      · simp [balanceFuel, hs]
      · simp only [balanceFuel, hs]
        rw [ih g2 t, balanceStep_count hs]

/-- Balancing never adds or drops an individual. -/
theorem balance_groups_count (gs : List (List Individual)) (t : Int)
    (y : Individual) :
    (balance_groups gs t).flatten.count y = gs.flatten.count y :=
  balanceFuel_count y _ gs t

/-- C1 counterexample: the partition with sizes `[3, 3, 1]` and target
`T = 2` satisfies the claim's side conditions (population `7 ≥ 3 × 2`,
remainder `7 % 3 = 1 < 3`), yet `balance_groups` returns it unchanged
because no group exceeds `T + 1 = 3`, and the last group keeps size
`1 < T`. -/
theorem balance_bound_counterexample :
    (([["a", "b", "c"], ["d", "e", "f"], ["g"]] :
        List (List Individual)).map List.length).sum = 7 ∧
    3 * 2 ≤ 7 ∧ 7 % 3 < 3 ∧
    balance_groups [["a", "b", "c"], ["d", "e", "f"], ["g"]] 2
      = [["a", "b", "c"], ["d", "e", "f"], ["g"]] ∧
    ∃ g ∈ balance_groups [["a", "b", "c"], ["d", "e", "f"], ["g"]] 2,
      g.length < 2 := by
  refine ⟨by decide, by decide, by decide, by decide, ⟨["g"], by decide, by decide⟩⟩

/-- C1 (amended): after `balance_groups` returns with target `T`, at least
one of the two bounds holds for all groups — no group exceeds `T + 1`, or
no group is below `T` — but not necessarily both, even when the
population size allows both (the loop stops as soon as one of the two
violator lists is empty). -/
theorem balance_bound_one_sided (gs : List (List Individual)) (t : Int) :
    (∀ g ∈ balance_groups gs t, (g.length : Int) ≤ t + 1) ∨
    (∀ g ∈ balance_groups gs t, t ≤ (g.length : Int)) := by
  rcases balanceStep_none_cases (balance_done gs t) with h | h
  · left
    intro g hg
    obtain ⟨i, hi, hig⟩ := List.mem_iff_getElem.1 hg
    rw [overfilled, List.filter_eq_nil_iff] at h
    have hfi := h i (List.mem_range.2 hi)
    rw [List.getD_eq_getElem _ _ hi, hig] at hfi
    simp only [decide_eq_true_eq] at hfi
    omega
  · right
    intro g hg
    obtain ⟨i, hi, hig⟩ := List.mem_iff_getElem.1 hg
    rw [underfilled, List.filter_eq_nil_iff] at h
    have hfi := h i (List.mem_range.2 hi)
    rw [List.getD_eq_getElem _ _ hi, hig] at hfi
    simp only [decide_eq_true_eq] at hfi
    omega

/-- C6: the Balancer terminates — every iteration of the
move-one-individual loop strictly decreases the total absolute deviation
of group sizes from the target, and the loop of `balance_groups` always
reaches its exit condition. -/
theorem balancer_terminates (gs : List (List Individual)) (t : Int) :
    (∀ g2, balanceStep gs t = some g2 → totalDev g2 t < totalDev gs t) ∧
    balanceStep (balance_groups gs t) t = none :=
  ⟨fun _ h => by have := balanceStep_totalDev h; omega, balance_done gs t⟩

/-- C6 witness: a concrete step — moving one member from the overfull
first group to the underfull second group — strictly decreases the
deviation measure. -/
theorem balancer_terminates_witness :
    balanceStep [["a", "b", "c"], ([] : List Individual)] 1
      = some [["a", "b"], ["c"]] ∧
    totalDev [["a", "b"], ["c"]] 1
      < totalDev [["a", "b", "c"], ([] : List Individual)] 1 :=
  ⟨by decide,
   (balancer_terminates [["a", "b", "c"], []] 1).1 [["a", "b"], ["c"]]
     (by decide)⟩

/-! # Greedy Assigner lemmas -/

theorem pickBest_isSome_of_isSome (friends : List Individual) :
    ∀ (l : List (List Individual)) (i : Nat) (best : Option (Nat × Int)),
      best.isSome → (pickBest friends l i best).isSome := by
  intro l
  induction l with
  | nil => intro i best h; exact h
  | cons g gs ih =>
      intro i best h
      cases best with
      | none => simp at h
      | some bs =>
          simp only [pickBest]
          exact ih _ _ (by split <;> rfl)

/-- A group returned by the inner loop either survives from the initial
accumulator or is one of the scanned indices. -/
theorem pickBest_bound (friends : List Individual) :
    ∀ (l : List (List Individual)) (i : Nat) (best : Option (Nat × Int))
      (j : Nat) (s : Int),
      pickBest friends l i best = some (j, s) →
      some (j, s) = best ∨ (i ≤ j ∧ j < i + l.length) := by
  intro l
  induction l with
  | nil => intro i best j s h; exact Or.inl h.symm
  | cons g gs ih =>
      intro i best j s h
      cases best with
      | none =>
          simp only [pickBest] at h
          rcases ih _ _ _ _ h with heq | ⟨hb1, hb2⟩
          · simp only [Option.some.injEq, Prod.mk.injEq] at heq
            refine Or.inr ⟨heq.1.ge, ?_⟩
            simp only [List.length_cons]
            omega
          · refine Or.inr ⟨by omega, ?_⟩
            simp only [List.length_cons]
            omega
      | some bs =>
          simp only [pickBest] at h
          rcases ih _ _ _ _ h with heq | ⟨hb1, hb2⟩
          · split at heq
            · simp only [Option.some.injEq, Prod.mk.injEq] at heq
              refine Or.inr ⟨heq.1.ge, ?_⟩
              simp only [List.length_cons]
              omega
            · exact Or.inl heq
          · refine Or.inr ⟨by omega, ?_⟩
            simp only [List.length_cons]
            omega

theorem pickBestGroup_lt {friends : List Individual}
    {groups : List (List Individual)} {j : Nat}
    (h : pickBestGroup friends groups = some j) : j < groups.length := by
  unfold pickBestGroup at h
  rcases Option.map_eq_some'.1 h with ⟨⟨j', s⟩, hp, he⟩
  obtain rfl : j' = j := he
  rcases pickBest_bound friends groups 0 none j' s hp with heq | ⟨_, h2⟩
  · simp at heq
  · simpa using h2

theorem pickBestGroup_isSome {friends : List Individual}
    {groups : List (List Individual)} (h : groups ≠ []) :
    (pickBestGroup friends groups).isSome := by
  unfold pickBestGroup
  rcases groups with _ | ⟨g, gs⟩
  · exact absurd rfl h
  · simp only [pickBest]
    have hs := pickBest_isSome_of_isSome friends gs 1
      (some (0, groupScore friends g)) rfl
    obtain ⟨a, ha⟩ := Option.isSome_iff_exists.1 hs
    simp only [Nat.zero_add]
    rw [ha]
    rfl

/-- One step of the assignment loop: the group count is stable, the
assigned set stays duplicate-free, it grows by exactly the processed
student, and the flattened partition and the assigned set change by the
same multiplicities. -/
theorem assignOne_spec (prefs : Prefs) (st : AssignState) (s : Individual)
    (h1 : 1 ≤ st.groups.length) (hnd : st.assigned.Nodup) :
    (assignOne prefs st s).groups.length = st.groups.length ∧
    (assignOne prefs st s).assigned.Nodup ∧
    (∀ x, x ∈ (assignOne prefs st s).assigned ↔ x ∈ st.assigned ∨ x = s) ∧
    (∀ x, (assignOne prefs st s).groups.flatten.count x + st.assigned.count x
        = st.groups.flatten.count x + (assignOne prefs st s).assigned.count x) := by
  unfold assignOne
  by_cases hmem : s ∈ st.assigned
  · rw [if_pos hmem]
    refine ⟨rfl, hnd, fun x => ?_, fun x => rfl⟩
    constructor
    · exact fun h => Or.inl h
    · rintro (h | rfl)
      · exact h
      · exact hmem
  · rw [if_neg hmem]
    have hne : st.groups ≠ [] := by
      intro h0
      rw [h0] at h1
      simp at h1
    obtain ⟨i, hi⟩ := Option.isSome_iff_exists.1
      (@pickBestGroup_isSome (prefsGet prefs s) st.groups hne)
    rw [hi]
    dsimp only
    have hilt : i < st.groups.length := pickBestGroup_lt hi
    refine ⟨List.length_set .., ?_, fun x => ?_, fun x => ?_⟩
    · rw [List.nodup_append]
      exact ⟨hnd, List.nodup_singleton s, List.disjoint_singleton.2 hmem⟩
    · simp [List.mem_append]
    · have hsum := sum_map_set (List.count x) st.groups i
        ((st.groups.getD i []) ++ [s]) [] hilt
      rw [List.count_append] at hsum
      rw [List.count_flatten, List.count_flatten, List.count_append]
      omega

/-- Invariants of the whole assignment loop, for any starting state with
at least one group. -/
theorem assign_fold_spec (prefs : Prefs) :
    ∀ (order : List Individual) (st : AssignState),
      1 ≤ st.groups.length → st.assigned.Nodup →
      (order.foldl (assignOne prefs) st).groups.length = st.groups.length ∧
      (order.foldl (assignOne prefs) st).assigned.Nodup ∧
      (∀ x, x ∈ (order.foldl (assignOne prefs) st).assigned ↔
         x ∈ st.assigned ∨ x ∈ order) ∧
      (∀ x, (order.foldl (assignOne prefs) st).groups.flatten.count x
            + st.assigned.count x
          = st.groups.flatten.count x
            + (order.foldl (assignOne prefs) st).assigned.count x) := by
  intro order
  induction order with
  | nil =>
      intro st h1 hnd
      exact ⟨rfl, hnd, fun x => by simp, fun x => rfl⟩
  | cons s rest ih =>
      intro st h1 hnd
      obtain ⟨hl1, hnd1, hm1, hc1⟩ := assignOne_spec prefs st s h1 hnd
      obtain ⟨hl2, hnd2, hm2, hc2⟩ := ih (assignOne prefs st s)
        (by omega) hnd1
      rw [List.foldl_cons]
      refine ⟨hl2.trans hl1, hnd2, fun x => ?_, fun x => ?_⟩
      · rw [hm2 x, hm1 x, List.mem_cons]
        tauto
      · have ha := hc2 x
        have hb := hc1 x
        omega

theorem flatten_replicate_nil (n : Nat) :
    (List.replicate n ([] : List Individual)).flatten = [] := by
  induction n with
  | zero => rfl
  | succ k ih => simp [List.replicate_succ, ih]

/-- After the greedy loop (with at least one group) the flattened
partition contains each member of the input order exactly once. -/
theorem assignCore_count (students : List Individual) (prefs : Prefs)
    (n : Nat) (hn : 1 ≤ n) (x : Individual) :
    (assignCore students prefs n).groups.flatten.count x
      = if x ∈ students then 1 else 0 := by
  unfold assignCore
  obtain ⟨_, hnd, hm, hc⟩ := assign_fold_spec prefs students
    ⟨List.replicate n [], []⟩ (by simpa using hn) List.nodup_nil
  have hc' := hc x
  have hmx := hm x
  simp only at hc' hmx
  rw [flatten_replicate_nil] at hc'
  simp only [List.count_nil, List.not_mem_nil, false_or] at hc' hmx
  by_cases hx : x ∈ students
  · rw [if_pos hx]
    rw [List.count_eq_one_of_mem hnd (hmx.2 hx)] at hc'
    omega
  · rw [if_neg hx]
    rw [List.count_eq_zero_of_not_mem (fun hc0 => hx (hmx.1 hc0))] at hc'
    omega

/-! # Shuffle lemmas -/

theorem filterMap_range_getElem {α : Type} (l : List α) :
    (List.range l.length).filterMap (fun i => l[i]?) = l := by
  induction l with
  | nil => rfl
  | cons a xs ih =>
      rw [List.length_cons, List.range_succ_eq_map]
      have hfc : ((fun i => (a :: xs)[i]?) ∘ Nat.succ) = fun i => xs[i]? := by
        funext i
        simp [Function.comp]
      rw [List.filterMap_cons]
      simp only [List.getElem?_cons_zero]
      rw [List.filterMap_map, hfc, ih]

/-- A genuine shuffle outcome is a permutation of the original list. -/
theorem applyPerm_perm {α : Type} (perm : List Nat) (l : List α)
    (h : perm.Perm (List.range l.length)) : (applyPerm perm l).Perm l := by
  unfold applyPerm
  have h2 := h.filterMap (fun i => l[i]?)
  rw [filterMap_range_getElem] at h2
  exact h2

/-- C10: `assign_students_to_groups` shuffles the caller's `students` list
in place — after the call the list holds the same elements (it is a
permutation of the original) but may be in a different order, witnessed
by a two-element list a transposition reverses. -/
theorem assign_mutates_students (perm : List Nat)
    (students : List Individual) (prefs : Prefs) (n : Nat)
    (h : perm.Perm (List.range students.length)) :
    ((assign_students_to_groups perm students prefs n).2).Perm students ∧
    ∃ s2 p2, p2.Perm (List.range s2.length) ∧
      (assign_students_to_groups p2 s2 prefs n).2 ≠ s2 := by
  constructor
  · exact applyPerm_perm perm students h
  · refine ⟨["a", "b"], [1, 0], by decide, ?_⟩
    show applyPerm [1, 0] ["a", "b"] ≠ ["a", "b"]
    decide

/-- C10 witness: a concrete in-place shuffle leaves the caller's list a
permutation of the original. -/
theorem assign_mutates_students_witness :
    ((assign_students_to_groups [1, 0] ["a", "b"] [] 2).2).Perm ["a", "b"] :=
  (assign_mutates_students [1, 0] ["a", "b"] [] 2 (by decide)).1

/-- C3: the Greedy Assigner is deterministic given a fixed individual
ordering — two calls whose shuffles produce the same ordering return the
same partition (and leave the list in the same state); the shuffle
outcome is the only source of randomness. -/
theorem assigner_deterministic (perm1 perm2 : List Nat)
    (students : List Individual) (prefs : Prefs) (n : Nat)
    (h : applyPerm perm1 students = applyPerm perm2 students) :
    assign_students_to_groups perm1 students prefs n
      = assign_students_to_groups perm2 students prefs n := by
  unfold assign_students_to_groups
  rw [h]

/-- C3 witness: two different shuffles that produce the same ordering of
a two-element list yield identical partitions. -/
theorem assigner_deterministic_witness :
    assign_students_to_groups [0, 1] ["a", "a"] [("a", ["b"])] 2
      = assign_students_to_groups [1, 0] ["a", "a"] [("a", ["b"])] 2 :=
  assigner_deterministic [0, 1] [1, 0] ["a", "a"] [("a", ["b"])] 2 (by decide)

/-- C2: for every population, preference list, group count `≥ 1` and
balance target, after assignment and balancing every individual of the
population appears in exactly one group — the flattened partition counts
each population member once and contains nothing else. -/
theorem assignment_complete (perm : List Nat) (students : List Individual)
    (prefs : Prefs) (n : Nat) (t : Int) (hn : 1 ≤ n)
    (hperm : perm.Perm (List.range students.length)) (x : Individual) :
    (balance_groups (assign_students_to_groups perm students prefs n).1
        t).flatten.count x
      = if x ∈ students then 1 else 0 := by
  rw [balance_groups_count]
  have hshuffle : (applyPerm perm students).Perm students :=
    applyPerm_perm perm students hperm
  have h := assignCore_count (applyPerm perm students) prefs n hn x
  rw [show (assign_students_to_groups perm students prefs n).1
      = (assignCore (applyPerm perm students) prefs n).groups from rfl]
  rw [h]
  by_cases hx : x ∈ students
  · rw [if_pos hx, if_pos (hshuffle.mem_iff.2 hx)]
  · rw [if_neg hx, if_neg (fun hc => hx (hshuffle.mem_iff.1 hc))]

/-- C2 witness: on a concrete three-student population with two groups,
the student `a` ends up in exactly one group after assignment and
balancing. -/
theorem assignment_complete_witness :
    (balance_groups (assign_students_to_groups [2, 0, 1] ["a", "b", "c"]
        [("a", ["b"])] 2).1 1).flatten.count "a" = 1 := by
  have h := assignment_complete [2, 0, 1] ["a", "b", "c"] [("a", ["b"])] 2 1
    (by decide) (by decide) "a"
  simpa using h

/-! # Evaluator lemmas -/

/-- The evaluation loop counts, over the processed entries, the present
owners in the second component and the matched owners in the first. -/
theorem evalFold_spec (groups : List (List Individual)) :
    ∀ (prefs : Prefs) (a b : Nat),
      evalFold groups prefs (a, b)
        = (a + prefs.countP (evalSuccess groups),
           b + prefs.countP (evalPresent groups)) := by
  intro prefs
  induction prefs with
  | nil => intro a b; simp [evalFold]
  | cons p rest ih =>
      obtain ⟨s, fs⟩ := p
      intro a b
      simp only [evalFold]
      rcases hg : student_to_group groups s with _ | g <;> dsimp only
      · rw [ih]
        simp only [List.countP_cons, evalSuccess, evalPresent, hg]
        simp
      · by_cases ha : fs.any (fun f => student_to_group groups f = some g)
        · rw [if_pos ha, ih]
          simp only [List.countP_cons, evalSuccess, evalPresent, hg, ha,
            Option.isSome_some, if_true, Prod.mk.injEq]
          omega
        · rw [if_neg ha, ih]
          simp only [List.countP_cons, evalSuccess, evalPresent, hg,
            Option.isSome_some, if_true, Prod.mk.injEq]
          rw [if_neg (by simpa using ha)]
          omega

/-- C4: the Evaluator counts exactly the preference entries whose owner
appears in the partition — absent owners are excluded from both numerator
and denominator — returns `(100 × successes / total, successes, total)`
with percentage `0` when the total is `0`, and on the fixture population
`{A, B, C, D}` with preferences `A→[B]`, `B→[A]`, `C→[D]`, `D→[]` and
partition `{G1: [A, B], G2: [C, D]}` reports successes 3, total 4,
percentage 75. -/
theorem evaluator_spec (groups : List (List Individual)) (prefs : Prefs) :
    (evaluate_friend_success groups prefs).2.2
      = prefs.countP (evalPresent groups) ∧
    (evaluate_friend_success groups prefs).2.1
      = prefs.countP (evalSuccess groups) ∧
    (evaluate_friend_success groups prefs).1 =
      (if (evaluate_friend_success groups prefs).2.2 = 0 then 0
       else 100 * ((evaluate_friend_success groups prefs).2.1 : ℚ)
              / ((evaluate_friend_success groups prefs).2.2 : ℚ)) ∧
    evaluate_friend_success [["A", "B"], ["C", "D"]]
        [("A", ["B"]), ("B", ["A"]), ("C", ["D"]), ("D", [])]
      = (75, 3, 4) := by
  refine ⟨?_, ?_, ?_, ?_⟩
  · unfold evaluate_friend_success
    rw [evalFold_spec]
    simp
  · unfold evaluate_friend_success
    rw [evalFold_spec]
    simp
  · unfold evaluate_friend_success
    rcases hst : evalFold groups prefs (0, 0) with ⟨s, t⟩
    simp only
    rcases Nat.eq_zero_or_pos t with rfl | ht
    · simp
    · rw [if_pos ht, if_neg (by omega)]
      ring
  · have h : evalFold [["A", "B"], ["C", "D"]]
        [("A", ["B"]), ("B", ["A"]), ("C", ["D"]), ("D", [])] (0, 0)
        = (3, 4) := by decide
    unfold evaluate_friend_success
    rw [h]
    norm_num

/-! # Dangling-preference lemmas -/

theorem prefsGet_restrict (prefs : Prefs) (pop : List Individual)
    (s : Individual) :
    prefsGet (restrictPrefs prefs pop) s
      = (prefsGet prefs s).filter (fun f => decide (f ∈ pop)) := by
  induction prefs with
  | nil => rfl
  | cons p rest ih =>
      obtain ⟨k, fs⟩ := p
      simp only [restrictPrefs, List.map_cons, prefsGet]
      by_cases hk : k = s
      · rw [if_pos hk, if_pos hk]
      · rw [if_neg hk, if_neg hk]
        exact ih

/-- References outside the population never change a group's score, as
long as the group's members all come from the population. -/
theorem groupScore_restrict (fs members pop : List Individual)
    (hsub : ∀ x ∈ members, x ∈ pop) :
    groupScore (fs.filter (fun f => decide (f ∈ pop))) members
      = groupScore fs members := by
  have hc : (fs.filter (fun f => decide (f ∈ pop))).countP
        (fun f => decide (f ∈ members))
      = fs.countP (fun f => decide (f ∈ members)) := by
    rw [List.countP_filter]
    apply List.countP_congr
    intro x _
    by_cases hm : x ∈ members
    · simp [hm, hsub x hm]
    · simp [hm]
  unfold groupScore
  rw [hc]

theorem pickBest_congr {fs1 fs2 : List Individual} :
    ∀ (l : List (List Individual)),
      (∀ g ∈ l, groupScore fs1 g = groupScore fs2 g) →
      ∀ (i : Nat) (best : Option (Nat × Int)),
        pickBest fs1 l i best = pickBest fs2 l i best := by
  intro l
  induction l with
  | nil => intro _ i best; rfl
  | cons g gs ih =>
      intro h i best
      have hg := h g (List.mem_cons_self g gs)
      have hrest := fun g' hg' => h g' (List.mem_cons_of_mem _ hg')
      cases best with
      | none =>
          simp only [pickBest, hg]
          exact ih hrest _ _
      | some bs =>
          simp only [pickBest, hg]
          exact ih hrest _ _

/-- Every member placed by the loop comes from the invariant population. -/
theorem assignOne_mem_inv (prefs : Prefs) (st : AssignState) (s : Individual)
    (P : Individual → Prop)
    (hinv : ∀ g ∈ st.groups, ∀ x ∈ g, P x) (hs : P s) :
    ∀ g ∈ (assignOne prefs st s).groups, ∀ x ∈ g, P x := by
  unfold assignOne
  by_cases hmem : s ∈ st.assigned
  · rw [if_pos hmem]
    exact hinv
  · rw [if_neg hmem]
    rcases hp : pickBestGroup (prefsGet prefs s) st.groups with _ | i <;> dsimp only
    · exact hinv
    · intro g hgmem x hx
      rcases List.mem_or_eq_of_mem_set hgmem with hg | rfl
      · exact hinv g hg x hx
      · rcases List.mem_append.1 hx with hx1 | hx2
        · have hilt := pickBestGroup_lt hp
          have hdm : st.groups.getD i [] ∈ st.groups := by
            rw [List.getD_eq_getElem _ _ hilt]
            exact List.getElem_mem hilt
          exact hinv _ hdm x hx1
        · obtain rfl := List.mem_singleton.1 hx2
          exact hs

theorem assignOne_restrict (prefs : Prefs) (students : List Individual)
    (st : AssignState) (s : Individual)
    (hinv : ∀ g ∈ st.groups, ∀ x ∈ g, x ∈ students) :
    assignOne (restrictPrefs prefs students) st s = assignOne prefs st s := by
  unfold assignOne
  by_cases hmem : s ∈ st.assigned
  · rw [if_pos hmem, if_pos hmem]
  · rw [if_neg hmem, if_neg hmem]
    have hpick :
        pickBestGroup (prefsGet (restrictPrefs prefs students) s) st.groups
          = pickBestGroup (prefsGet prefs s) st.groups := by
      unfold pickBestGroup
      rw [prefsGet_restrict]
      rw [pickBest_congr st.groups
        (fun g hg => groupScore_restrict _ _ _ (hinv g hg)) 0 none]
    rw [hpick]

theorem assign_fold_restrict (prefs : Prefs) (students : List Individual) :
    ∀ (order : List Individual) (st : AssignState),
      (∀ g ∈ st.groups, ∀ x ∈ g, x ∈ students) →
      (∀ s ∈ order, s ∈ students) →
      order.foldl (assignOne (restrictPrefs prefs students)) st
        = order.foldl (assignOne prefs) st := by
  intro order
  induction order with
  | nil => intro st _ _; rfl
  | cons s rest ih =>
      intro st hinv hord
      rw [List.foldl_cons, List.foldl_cons]
      rw [assignOne_restrict prefs students st s hinv]
      exact ih (assignOne prefs st s)
        (assignOne_mem_inv prefs st s _ hinv (hord s (List.mem_cons_self s rest)))
        (fun x hx => hord x (List.mem_cons_of_mem _ hx))

theorem s2gAux_eq_some (x : Individual) :
    ∀ (l : List (List Individual)) (i : Nat) (acc : Option Nat) (j : Nat),
      s2gAux x l i acc = some j → acc = some j ∨ ∃ g ∈ l, x ∈ g := by
  intro l
  induction l with
  | nil => intro i acc j h; exact Or.inl h
  | cons g gs ih =>
      intro i acc j h
      simp only [s2gAux] at h
      by_cases hx : x ∈ g
      · exact Or.inr ⟨g, List.mem_cons_self g gs, hx⟩
      · rw [if_neg hx] at h
        rcases ih _ _ _ h with h1 | ⟨g', hg', hx'⟩
        · exact Or.inl h1
        · exact Or.inr ⟨g', List.mem_cons_of_mem _ hg', hx'⟩

/-- A student the partition maps to a group occurs in the partition. -/
theorem student_to_group_mem {groups : List (List Individual)}
    {x : Individual} {j : Nat} (h : student_to_group groups x = some j) :
    x ∈ groups.flatten := by
  rcases s2gAux_eq_some x groups 0 none j h with h1 | ⟨g, hg, hx⟩
  · exact absurd h1 (by simp)
  · exact List.mem_flatten.2 ⟨g, hg, hx⟩

theorem evalFold_restrict (groups : List (List Individual)) :
    ∀ (prefs : Prefs) (st : Nat × Nat),
      evalFold groups (restrictPrefs prefs groups.flatten) st
        = evalFold groups prefs st := by
  intro prefs
  induction prefs with
  | nil => intro st; rfl
  | cons p rest ih =>
      obtain ⟨s, fs⟩ := p
      intro st
      simp only [restrictPrefs, List.map_cons, evalFold]
      rcases hg : student_to_group groups s with _ | g <;> dsimp only
      · exact ih st
      · have hfe : (fun f => decide (f ∈ groups.flatten)
              && decide (student_to_group groups f = some g))
            = fun f => decide (student_to_group groups f = some g) := by
          funext f
          by_cases hf : student_to_group groups f = some g
          · simp [hf, student_to_group_mem hf]
          · simp [hf]
        rw [List.any_filter, hfe]
        exact ih _

/-- C8: preference references to individuals outside the population never
contribute to any group's affinity score during assignment and never
complete a match in evaluation — removing them changes neither the
produced partition nor the evaluation result (and the model is total, so
they cannot crash either function). -/
theorem dangling_refs_ignored (students : List Individual) (prefs : Prefs)
    (n : Nat) (groups : List (List Individual)) :
    assignCore students (restrictPrefs prefs students) n
      = assignCore students prefs n ∧
    evaluate_friend_success groups (restrictPrefs prefs groups.flatten)
      = evaluate_friend_success groups prefs := by
  constructor
  · unfold assignCore
    apply assign_fold_restrict prefs students students ⟨List.replicate n [], []⟩
    · intro g hg x hx
      rw [List.eq_of_mem_replicate hg] at hx
      simp at hx
    · exact fun s hs => hs
  · unfold evaluate_friend_success
    rw [evalFold_restrict]

/-! # Search Driver lemmas -/

theorem bestStep_percent (best : BestRecord) (curr : TrialOutcome) :
    (bestStep best curr).percent = max best.percent curr.percent := by
  unfold bestStep
  rcases le_or_lt curr.percent best.percent with h | h
  · rw [if_neg (not_lt.2 h), max_eq_left h]
  · rw [if_pos h, max_eq_right h.le]

theorem foldl_bestStep_percent :
    ∀ (trials : List TrialOutcome) (init : BestRecord),
      (trials.foldl bestStep init).percent
        = (trials.map TrialOutcome.percent).foldl max init.percent := by
  intro trials
  induction trials with
  | nil => intro init; rfl
  | cons tr rest ih =>
      intro init
      rw [List.foldl_cons, List.map_cons, List.foldl_cons, ih, bestStep_percent]

theorem le_foldl_max (l : List ℚ) : ∀ (a : ℚ), a ≤ l.foldl max a := by
  induction l with
  | nil => intro a; exact le_rfl
  | cons x xs ih =>
      intro a
      exact le_trans (le_max_left a x) (ih (max a x))

theorem mem_le_foldl_max (l : List ℚ) :
    ∀ (a x : ℚ), x ∈ l → x ≤ l.foldl max a := by
  induction l with
  | nil => intro a x hx; simp at hx
  | cons y ys ih =>
      intro a x hx
      rcases List.mem_cons.1 hx with rfl | hx2
      · exact le_trans (le_max_right a x) (le_foldl_max ys (max a x))
      · exact ih (max a y) x hx2

theorem foldl_max_choice (l : List ℚ) :
    ∀ (a : ℚ), l.foldl max a = a ∨ l.foldl max a ∈ l := by
  induction l with
  | nil => intro a; exact Or.inl rfl
  | cons x xs ih =>
      intro a
      rw [List.foldl_cons]
      rcases ih (max a x) with h | h
      · rcases max_choice a x with hm | hm
        · rw [h, hm]
          exact Or.inl rfl
        · rw [h, hm]
          exact Or.inr (List.mem_cons_self x xs)
      · exact Or.inr (List.mem_cons_of_mem x h)

/-- If no trial strictly beats the starting record, the record survives
untouched. -/
theorem foldl_bestStep_stationary :
    ∀ (trials : List TrialOutcome) (init : BestRecord),
      (trials.foldl bestStep init).percent ≤ init.percent →
      trials.foldl bestStep init = init := by
  intro trials
  induction trials with
  | nil => intro init _; rfl
  | cons tr rest ih =>
      intro init h
      rw [List.foldl_cons] at h ⊢
      by_cases hlt : init.percent < tr.percent
      · exfalso
        have h1 : (bestStep init tr).percent = tr.percent := by
          unfold bestStep
          rw [if_pos hlt]
        have h2 : (bestStep init tr).percent
            ≤ (rest.foldl bestStep (bestStep init tr)).percent := by
          rw [foldl_bestStep_percent]
          exact le_foldl_max _ _
        rw [h1] at h2
        linarith
      · have heq : bestStep init tr = init := by
          unfold bestStep
          rw [if_neg hlt]
        rw [heq] at h ⊢
        exact ih init h

/-- First-occurrence tie-break: when some trial beat the starting record,
the final record is the one of the first trial attaining the final
percentage. -/
theorem foldl_bestStep_first :
    ∀ (trials : List TrialOutcome) (init : BestRecord),
      init.percent < (trials.foldl bestStep init).percent →
      ∃ tr, trials.find? (fun t =>
          decide ((trials.foldl bestStep init).percent ≤ t.percent)) = some tr
        ∧ trials.foldl bestStep init = trialRecord tr := by
  intro trials
  induction trials with
  | nil => intro init h; exact absurd h (lt_irrefl _)
  | cons tr rest ih =>
      intro init h
      rw [List.foldl_cons] at h ⊢
      by_cases hlt : init.percent < tr.percent
      · have hstep : bestStep init tr = trialRecord tr := by
          unfold bestStep
          rw [if_pos hlt]
          rfl
        rw [hstep] at h ⊢
        by_cases h2 : (trialRecord tr).percent
            < (rest.foldl bestStep (trialRecord tr)).percent
        · obtain ⟨tr2, hfind, heq⟩ := ih (trialRecord tr) h2
          refine ⟨tr2, ?_, heq⟩
          have hpred : decide ((rest.foldl bestStep (trialRecord tr)).percent
              ≤ tr.percent) = false := by
            simp only [decide_eq_false_iff_not, not_le]
            exact h2
          rw [List.find?_cons]
          rw [hpred]
          exact hfind
        · push_neg at h2
          have hstat := foldl_bestStep_stationary rest (trialRecord tr) h2
          rw [hstat]
          refine ⟨tr, ?_, rfl⟩
          have hpred : decide ((trialRecord tr).percent ≤ tr.percent)
              = true := by
            simp only [decide_eq_true_eq]
            exact le_rfl
          rw [List.find?_cons]
          rw [hpred]
      · have hstep : bestStep init tr = init := by
          unfold bestStep
          rw [if_neg hlt]
        rw [hstep] at h ⊢
        obtain ⟨tr2, hfind, heq⟩ := ih init h
        refine ⟨tr2, ?_, heq⟩
        push_neg at hlt
        have hpred : decide ((rest.foldl bestStep init).percent ≤ tr.percent)
            = false := by
          simp only [decide_eq_false_iff_not, not_le]
          exact lt_of_le_of_lt hlt h
        rw [List.find?_cons]
        rw [hpred]
        exact hfind

/-- C5: the Search Driver's best-so-far loop returns a percentage that is
at least every trial's percentage and equals the maximum percentage
observed (with the initial record at 0); the record is replaced only on a
strict improvement, so later equal-scoring trials never replace it, and
whenever the final percentage is positive the kept record is exactly the
first trial that attained it. -/
theorem search_best_tracking (trials : List TrialOutcome) :
    (∀ tr ∈ trials, tr.percent ≤ (run_n_times_best trials).percent) ∧
    ((run_n_times_best trials).percent
      = (trials.map TrialOutcome.percent).foldl max 0) ∧
    (trials ≠ [] → (∀ tr ∈ trials, 0 ≤ tr.percent) →
      ∃ tr ∈ trials, (run_n_times_best trials).percent = tr.percent) ∧
    (∀ best curr, curr.percent ≤ best.percent → bestStep best curr = best) ∧
    (0 < (run_n_times_best trials).percent →
      ∃ tr, trials.find? (fun t =>
          decide ((run_n_times_best trials).percent ≤ t.percent)) = some tr ∧
        run_n_times_best trials = trialRecord tr) := by
  refine ⟨?_, ?_, ?_, ?_, ?_⟩
  · intro tr htr
    unfold run_n_times_best
    rw [foldl_bestStep_percent]
    exact mem_le_foldl_max _ _ _ (List.mem_map_of_mem _ htr)
  · unfold run_n_times_best
    rw [foldl_bestStep_percent]
    rfl
  · intro hne hpos
    unfold run_n_times_best
    rw [foldl_bestStep_percent]
    rcases foldl_max_choice (trials.map TrialOutcome.percent)
        initRecord.percent with h | h
    · rcases trials with _ | ⟨t0, rest⟩
      · exact absurd rfl hne
      · refine ⟨t0, List.mem_cons_self _ _, ?_⟩
        have hle := mem_le_foldl_max (List.map TrialOutcome.percent (t0 :: rest))
          initRecord.percent t0.percent
          (List.mem_map_of_mem _ (List.mem_cons_self _ _))
        rw [h] at hle
        have hge := hpos t0 (List.mem_cons_self _ _)
        have h0 : initRecord.percent = (0 : ℚ) := rfl
        rw [h, h0]
        rw [h0] at hle
        linarith
    · obtain ⟨tr, htr, heq⟩ := List.mem_map.1 h
      exact ⟨tr, htr, heq.symm⟩
  · intro best curr h
    unfold bestStep
    rw [if_neg (not_lt.2 h)]
  · intro hpos
    exact foldl_bestStep_first trials initRecord hpos

/-- C5 witness: with trials scoring 0, 50 and 50, the driver keeps the
record of the first 50-percent trial. -/
theorem search_best_tracking_witness :
    0 < (run_n_times_best [⟨0, [], 0, 1⟩, ⟨50, [["a", "b"]], 1, 2⟩,
        ⟨50, [["b", "a"]], 1, 2⟩]).percent ∧
    ∃ tr, ([⟨0, [], 0, 1⟩, ⟨50, [["a", "b"]], 1, 2⟩,
        ⟨50, [["b", "a"]], 1, 2⟩] : List TrialOutcome).find? (fun t =>
        decide ((run_n_times_best [⟨0, [], 0, 1⟩, ⟨50, [["a", "b"]], 1, 2⟩,
          ⟨50, [["b", "a"]], 1, 2⟩]).percent ≤ t.percent)) = some tr ∧
      run_n_times_best [⟨0, [], 0, 1⟩, ⟨50, [["a", "b"]], 1, 2⟩,
        ⟨50, [["b", "a"]], 1, 2⟩] = trialRecord tr :=
  ⟨by decide,
   (search_best_tracking [⟨0, [], 0, 1⟩, ⟨50, [["a", "b"]], 1, 2⟩,
     ⟨50, [["b", "a"]], 1, 2⟩]).2.2.2.2 (by decide)⟩

/-! # Pipeline error behaviour -/

/-- C7: the pipeline does not fail fast with a descriptive
invalid-configuration error on a non-positive group count or a zero trial
count.  A group count of 0 raises `ZeroDivisionError` at the target-size
division inside the first trial; a negative group count lets every trial
silently succeed with a degenerate empty partition, after which the
driver crashes with `AttributeError` when the never-replaced `None` best
partition is exported; zero trials crash the same way. -/
theorem invalid_config_behavior :
    run_n_times [([0, 1], [0, 1])] ["a", "b"] [] 0
      = .error .zeroDivision ∧
    run_smart_assignment [0, 1] [0, 1] ["a", "b"] [] (-2)
      = .ok ⟨0, [], 0, 0⟩ ∧
    run_n_times [([0, 1], [0, 1])] ["a", "b"] [] (-2)
      = .error .attributeNone ∧
    run_n_times [] ["a", "b"] [] 3 = .error .attributeNone := by
  exact ⟨rfl, rfl, rfl, rfl⟩

/-! # Empty-population behaviour -/

theorem applyPerm_nil (p : List Nat) :
    applyPerm p ([] : List Individual) = [] := by
  induction p with
  | nil => rfl
  | cons i rest ih => simp only [applyPerm, List.filterMap_cons] at ih ⊢; simp [ih]

theorem s2gAux_acc (x : Individual) :
    ∀ (l : List (List Individual)), (∀ g ∈ l, x ∉ g) →
      ∀ (i : Nat) (acc : Option Nat), s2gAux x l i acc = acc := by
  intro l
  induction l with
  | nil => intro _ i acc; rfl
  | cons g gs ih =>
      intro h i acc
      simp only [s2gAux]
      rw [if_neg (h g (List.mem_cons_self g gs))]
      exact ih (fun g2 hg2 => h g2 (List.mem_cons_of_mem _ hg2)) _ _

theorem student_to_group_replicate (k : Nat) (x : Individual) :
    student_to_group (List.replicate k []) x = none := by
  apply s2gAux_acc
  intro g hg
  rw [List.eq_of_mem_replicate hg]
  simp

theorem evalFold_skip_all (groups : List (List Individual))
    (hall : ∀ x, student_to_group groups x = none) :
    ∀ (prefs : Prefs) (st : Nat × Nat), evalFold groups prefs st = st := by
  intro prefs
  induction prefs with
  | nil => intro st; rfl
  | cons p rest ih =>
      obtain ⟨s, fs⟩ := p
      intro st
      simp only [evalFold, hall s]
      exact ih st

theorem totalDev_replicate_nil (k : Nat) :
    totalDev (List.replicate k []) 0 = 0 := by
  unfold totalDev
  rw [List.map_replicate]
  simp [devN, List.sum_replicate]

theorem balance_replicate_nil (k : Nat) :
    balance_groups (List.replicate k []) 0 = List.replicate k [] := by
  unfold balance_groups
  rw [totalDev_replicate_nil]
  rfl

/-- A trial with an empty population succeeds trivially for any nonzero
group count: the partition is all empty groups and the evaluation is
`0 / 0` with percentage 0. -/
theorem run_smart_empty (p1 p2 : List Nat) (prefs : Prefs) (g : Int)
    (hg : g ≠ 0) :
    run_smart_assignment p1 p2 [] prefs g
      = .ok ⟨0, List.replicate g.toNat [], 0, 0⟩ := by
  have hassign : assign_students_to_groups p2 (applyPerm p1 []) prefs g.toNat
      = (List.replicate g.toNat [], []) := by
    rw [applyPerm_nil]
    unfold assign_students_to_groups
    rw [applyPerm_nil]
    rfl
  have heval : evaluate_friend_success (List.replicate g.toNat []) prefs
      = (0, 0, 0) := by
    unfold evaluate_friend_success
    rw [evalFold_skip_all _ (fun x => student_to_group_replicate _ x)]
    simp
  unfold run_smart_assignment
  simp only [hassign, if_neg hg, List.length_nil, Nat.cast_zero,
    Int.zero_fdiv, balance_replicate_nil, heval]

theorem foldl_max_of_all_le (l : List ℚ) :
    ∀ (a : ℚ), (∀ x ∈ l, x ≤ a) → l.foldl max a = a := by
  induction l with
  | nil => intro a _; rfl
  | cons x xs ih =>
      intro a h
      rw [List.foldl_cons, max_eq_left (h x (List.mem_cons_self x xs))]
      exact ih a (fun y hy => h y (List.mem_cons_of_mem _ hy))

/-- With an empty population no trial ever strictly beats the initial
percentage 0, so the best record keeps its initial `None` partition and
the driver ends in the export `AttributeError`. -/
theorem run_n_times_empty (perms : List (List Nat × List Nat))
    (prefs : Prefs) (g : Int) (hg : g ≠ 0) :
    run_n_times perms [] prefs g = .error .attributeNone := by
  unfold run_n_times
  have hmap : perms.mapM (fun p => run_smart_assignment p.1 p.2 [] prefs g)
      = .ok (perms.map (fun _ => ⟨0, List.replicate g.toNat [], 0, 0⟩)) := by
    induction perms with
    | nil => rfl
    | cons p rest ih =>
        rw [List.mapM_cons, run_smart_empty p.1 p.2 prefs g hg, ih]
        rfl
  rw [hmap]
  have hbest : run_n_times_best (perms.map (fun _ =>
      (⟨0, List.replicate g.toNat [], 0, 0⟩ : TrialOutcome))) = initRecord := by
    apply foldl_bestStep_stationary
    rw [foldl_bestStep_percent]
    have hall : ∀ x ∈ (perms.map (fun _ =>
        (⟨0, List.replicate g.toNat [], 0, 0⟩ : TrialOutcome))).map
          TrialOutcome.percent, x ≤ initRecord.percent := by
      intro x hx
      rw [List.map_map] at hx
      obtain ⟨p, _, hpx⟩ := List.mem_map.1 hx
      rw [← hpx]
      exact le_rfl
    rw [foldl_max_of_all_le _ _ hall]
  dsimp only
  rw [hbest]
  rfl

/-- C9 counterexample: with an empty population the Search Driver does
not return a partition — the best record keeps `groups = None` (no trial
strictly exceeds the initial percentage 0) and handing it to the export
step raises `AttributeError`. -/
theorem empty_population_driver_counterexample :
    run_n_times [([], []), ([], [])] [] [("A", ["B"])] 9
      = .error .attributeNone := rfl

/-- C9 (amended): with an empty population no trial fails — every trial
returns successes 0, total 0, percentage 0 and a partition of empty
groups — but the Search Driver does not return that partition: since no
trial strictly exceeds the initial percentage 0, the best record keeps
its initial `None` partition and the run ends with `AttributeError` when
that `None` reaches the export step. -/
theorem empty_population_amended (perms : List (List Nat × List Nat))
    (p1 p2 : List Nat) (prefs : Prefs) (g : Int) (hg : g ≠ 0) :
    run_smart_assignment p1 p2 [] prefs g
      = .ok ⟨0, List.replicate g.toNat [], 0, 0⟩ ∧
    run_n_times perms [] prefs g = .error .attributeNone :=
  ⟨run_smart_empty p1 p2 prefs g hg, run_n_times_empty perms prefs g hg⟩

/-- C9 witness: the amended behaviour at the default 9 groups with one
trial. -/
theorem empty_population_amended_witness :
    run_smart_assignment [] [] [] [("A", ["B"])] 9
      = .ok ⟨0, List.replicate (9 : Int).toNat [], 0, 0⟩ ∧
    run_n_times [([], [])] [] [("A", ["B"])] 9 = .error .attributeNone :=
  empty_population_amended [([], [])] [] [] [("A", ["B"])] 9 (by decide)

end GroupDivision
